import Mathlib

/-!
Verification of the memoization facility and the tool/chat collaborators of a
declarative LLM orchestration framework.

The development shallowly embeds the code of
`packages/ai-jsx/src/lib/memoize.tsx`,
`packages/ai-jsx/src/lib/anthropic.tsx` and
`packages/ai-jsx/src/batteries/docs-components.tsx` (the `UseTools` family).
Parts of the core runtime (the streaming renderer and the error-code
enumeration) are not part of the sources; definitions for those parts are
modelled from the specification and say so in their doc comments.
-/

namespace AIJSXProof

/-! ## Node model

A `Node` in the source is a scalar leaf, an ordered sequence, an element, a
promise (eventual), or an async generator (lazy producer).  `memo` in
`memoize.tsx` discriminates exactly these five shapes.
-/

/-- Scalar leaves: strings, numbers, booleans, nullish. -/
inductive JScalar where
  | str (s : String)
  | num (n : Int)
  | bool (b : Bool)
  | nullish
deriving DecidableEq, Repr

/-- Element tags.  `comp id` is an ordinary component function (value-equal by
identity, abstracted as a numeric identity); the other three stand for the
fresh `Memoized`, `MemoizedPromise` and `MemoizedGenerator` component
functions that `memo` creates. -/
inductive JTag where
  | comp (id : Nat)
  | memoized
  | memoizedPromise
  | memoizedGenerator
deriving DecidableEq, Repr

/-- The data of an element relevant to `memo`:
 * `tag` — the component tag;
 * `memoFlag` — whether `isMemoizedSymbol` is present in `props`;
 * `cachedRender` — whether the element's `render` field has been replaced by
   the per-context caching function (`newElement` in `memoize.tsx`); the
   semantics of that caching render is modelled separately below.

The global `memoizedId` counter in the source only feeds the debug `id` prop
of the wrappers and is omitted. -/
structure ElemData where
  tag : JTag
  memoFlag : Bool
  cachedRender : Bool
deriving DecidableEq, Repr

/-- Nodes.  `elem e ch` carries `props.children` (for the memoized wrappers,
the captured payload) as `ch`.  `gen ys r` is a lazy producer that will yield
the nodes `ys` in order and finish with final return value `r` (`none` when
the iterator just ends). -/
inductive JNode where
  | scalar (v : JScalar)
  | arr (xs : List JNode)
  | elem (e : ElemData) (ch : JNode)
  | promise (p : JNode)
  | gen (ys : List JNode) (r : Option JNode)

mutual

/-- `memo` from `memoize.tsx`, on the node structure:
 * scalars (non-objects) are returned as they are;
 * arrays are mapped recursively;
 * an element whose props carry `isMemoizedSymbol` is returned unchanged;
   otherwise a `Memoized` wrapper element (flag set) is returned whose child
   is a copy of the element with the caching render installed;
 * a promise becomes a `MemoizedPromise` wrapper capturing
   `renderable.then(memo)` (the resolved value, memoized);
 * a generator becomes a `MemoizedGenerator` wrapper capturing the underlying
   generator; yielded values are memoized lazily at pull time (modelled by the
   buffering machinery below), so the captured payload is untouched here. -/
def memoN : JNode → JNode
  | .scalar v => .scalar v
  | .arr xs => .arr (memoList xs)
  | .elem e ch =>
    if e.memoFlag then .elem e ch
    else .elem ⟨.memoized, true, false⟩ (.elem ⟨e.tag, e.memoFlag, true⟩ ch)
  | .promise p => .elem ⟨.memoizedPromise, true, false⟩ (.promise (memoN p))
  | .gen ys r => .elem ⟨.memoizedGenerator, true, false⟩ (.gen ys r)

/-- `renderable.map(memo)` on an array, unfolded elementwise. -/
def memoList : List JNode → List JNode
  | [] => []
  | x :: xs => memoN x :: memoList xs

end

@[simp]
theorem memoN_scalar (v : JScalar) : memoN (.scalar v) = .scalar v := rfl

theorem memoList_eq_map (xs : List JNode) : memoList xs = xs.map memoN := by
  induction xs with
  | nil => rfl
  | cons x xs ih => simp [memoList, ih]

mutual

theorem memoN_idem : ∀ x, memoN (memoN x) = memoN x
  | .scalar _ => rfl
  | .arr xs => by simp only [memoN, memoList_idem xs]
  | .elem e ch => by
    by_cases h : e.memoFlag = true
    · simp [memoN, h]
    · simp only [Bool.not_eq_true] at h
      simp [memoN, h]
  | .promise p => by simp [memoN]
  | .gen ys r => by simp [memoN]

theorem memoList_idem : ∀ xs, memoList (memoList xs) = memoList xs
  | [] => rfl
  | x :: xs => by simp only [memoList, memoN_idem x, memoList_idem xs]

end

/-- Claim C6: `memo` is idempotent: for every Node `x`, `memo (memo x)` is
(observationally) equal to `memo x`; in particular an element carrying the
memoized flag symbol in its props is returned unchanged by `memo` rather than
being wrapped a second time. -/
theorem memo_idempotent (x : JNode) (e : ElemData) (ch : JNode) (h : e.memoFlag = true) :
    memoN (memoN x) = memoN x ∧ memoN (.elem e ch) = .elem e ch := by
  refine ⟨memoN_idem x, ?_⟩
  simp [memoN, h]

theorem memo_idempotent_witness :
    memoN (memoN (.arr [.scalar (.num 3), .promise (.scalar .nullish)])) =
        memoN (.arr [.scalar (.num 3), .promise (.scalar .nullish)]) ∧
      memoN (.elem ⟨.comp 0, true, false⟩ (.scalar .nullish)) =
        .elem ⟨.comp 0, true, false⟩ (.scalar .nullish) :=
  memo_idempotent (.arr [.scalar (.num 3), .promise (.scalar .nullish)])
    ⟨.comp 0, true, false⟩ (.scalar .nullish) rfl

/-! ## Per-context caching of a memoized element

`memo` on an element installs a render function that consults a weak mapping
keyed by the render context:

```
render: (ctx) => {
  if (memoizedValues.has(ctx)) { return memoizedValues.get(ctx); }
  const memoizedValue = memo(renderable.render(ctx));
  memoizedValues.set(ctx, memoizedValue);
  return memoizedValue;
}
```

Render contexts are value-equal by identity; they are abstracted as numeric
identities.  The function body is synchronous (no suspension between the
lookup and the store), so a sequential trace of calls is a faithful model of
any interleaving. -/

/-- A render context identity. -/
abbrev Ctx := Nat

/-- The `memoizedValues` weak mapping, as an association list. -/
def lookupCtx : List (Ctx × JNode) → Ctx → Option JNode
  | [], _ => none
  | (c, v) :: rest, c' => if c = c' then some v else lookupCtx rest c'

/-- One call of the memoized element's `render(ctx)`.  `inner` is the wrapped
element's own render.  Returns the produced node, the updated mapping, and
whether the inner render was invoked on this call. -/
def renderMemoized (inner : Ctx → JNode) (cache : List (Ctx × JNode)) (ctx : Ctx) :
    JNode × List (Ctx × JNode) × Bool :=
  match lookupCtx cache ctx with
  | some v => (v, cache, false)
  | none =>
    let v := memoN (inner ctx)
    (v, (ctx, v) :: cache, true)

/-- A trace of consecutive `render` calls against the same memoized element:
for each requested context, the returned node and whether the inner render
ran. -/
def runRenders (inner : Ctx → JNode) (cache : List (Ctx × JNode)) :
    List Ctx → List (Ctx × JNode × Bool)
  | [] => []
  | c :: cs =>
    let r := renderMemoized inner cache c
    (c, r.1, r.2.2) :: runRenders inner r.2.1 cs

/-- Counts the calls in a trace that both targeted context `c` and invoked the
inner render. -/
def countInner (c : Ctx) (trace : List (Ctx × JNode × Bool)) : Nat :=
  trace.countP (fun e => decide (e.1 = c ∧ e.2.2 = true))

theorem lookupCtx_cons (c c' : Ctx) (v : JNode) (rest : List (Ctx × JNode)) :
    lookupCtx ((c, v) :: rest) c' = if c = c' then some v else lookupCtx rest c' := rfl

@[simp]
theorem countInner_nil (c : Ctx) : countInner c [] = 0 := rfl

theorem countInner_cons (c : Ctx) (e : Ctx × JNode × Bool) (t : List (Ctx × JNode × Bool)) :
    countInner c (e :: t) = countInner c t + (if e.1 = c ∧ e.2.2 = true then 1 else 0) := by
  simp [countInner, List.countP_cons]

theorem countInner_cons_false (c c' : Ctx) (v : JNode) (t : List (Ctx × JNode × Bool)) :
    countInner c ((c', v, false) :: t) = countInner c t := by
  simp [countInner, List.countP_cons]

theorem countInner_cons_true_eq (c : Ctx) (v : JNode) (t : List (Ctx × JNode × Bool)) :
    countInner c ((c, v, true) :: t) = countInner c t + 1 := by
  simp [countInner, List.countP_cons]

theorem countInner_cons_true_ne (c c' : Ctx) (v : JNode) (t : List (Ctx × JNode × Bool))
    (h : ¬c' = c) : countInner c ((c', v, true) :: t) = countInner c t := by
  simp [countInner, List.countP_cons, h]

/-- Generalized cache invariant: if every value the cache already holds for
`c` is `memoN (inner c)`, then along any further trace the inner render runs
for `c` exactly once if `c` is requested while absent (zero times if already
cached), and every call under `c` returns `memoN (inner c)`. -/
theorem runRenders_spec (inner : Ctx → JNode) (c : Ctx) :
    ∀ (cs : List Ctx) (cache : List (Ctx × JNode)),
      (∀ v, lookupCtx cache c = some v → v = memoN (inner c)) →
      countInner c (runRenders inner cache cs) =
          (if (lookupCtx cache c).isNone = true ∧ c ∈ cs then 1 else 0) ∧
        ∀ e ∈ runRenders inner cache cs, e.1 = c → e.2.1 = memoN (inner c) := by
  intro cs
  induction cs with
  | nil => intro cache _; simp [runRenders]
  | cons c' cs ih =>
    intro cache hcache
    cases hlook : lookupCtx cache c' with
    | some v =>
      have hstep : runRenders inner cache (c' :: cs) =
          (c', v, false) :: runRenders inner cache cs := by
        simp [runRenders, renderMemoized, hlook]
      obtain ⟨ihcount, ihval⟩ := ih cache hcache
      rw [hstep]
      refine ⟨?_, ?_⟩
      · rw [countInner_cons_false, ihcount]
        by_cases hc : c' = c
        · subst hc
          simp [hlook]
        · refine if_congr (and_congr_right fun _ => ?_) rfl rfl
          constructor
          · exact fun h => List.mem_cons_of_mem _ h
          · intro h
            rcases List.mem_cons.mp h with h | h
            · exact absurd h.symm hc
            · exact h
      · intro e he heq
        rcases List.mem_cons.mp he with he | he
        · subst he
          exact hcache v (heq ▸ hlook)
        · exact ihval e he heq
    | none =>
      have hstep : runRenders inner cache (c' :: cs) =
          (c', memoN (inner c'), true) ::
            runRenders inner ((c', memoN (inner c')) :: cache) cs := by
        simp [runRenders, renderMemoized, hlook]
      by_cases hc : c' = c
      · subst hc
        have hcache' : ∀ v, lookupCtx ((c', memoN (inner c')) :: cache) c' = some v →
            v = memoN (inner c') := by
          intro v hv
          rw [lookupCtx_cons, if_pos rfl] at hv
          cases hv
          rfl
        obtain ⟨ihcount, ihval⟩ := ih ((c', memoN (inner c')) :: cache) hcache'
        rw [hstep]
        refine ⟨?_, ?_⟩
        · rw [countInner_cons_true_eq, ihcount]
          simp [lookupCtx_cons, hlook]
        · intro e he heq
          rcases List.mem_cons.mp he with he | he
          · subst he; rfl
          · exact ihval e he heq
      · have hlook' : lookupCtx ((c', memoN (inner c')) :: cache) c = lookupCtx cache c := by
          rw [lookupCtx_cons, if_neg hc]
        obtain ⟨ihcount, ihval⟩ := ih ((c', memoN (inner c')) :: cache)
          (fun v hv => hcache v (hlook' ▸ hv))
        rw [hstep]
        refine ⟨?_, ?_⟩
        · rw [countInner_cons_true_ne _ _ _ _ hc, ihcount, hlook']
          refine if_congr (and_congr_right fun _ => ?_) rfl rfl
          constructor
          · exact fun h => List.mem_cons_of_mem _ h
          · intro h
            rcases List.mem_cons.mp h with h | h
            · exact absurd h.symm hc
            · exact h
        · intro e he heq
          rcases List.mem_cons.mp he with he | he
          · subst he; exact absurd heq hc
          · exact ihval e he heq

/-! ## The memoized generator machinery

`memo` on an async generator closes over shared mutable state

```
const sink: Renderable[] = [];
let completed = false;
let nextPromise: Promise<void> | null = null;
```

and each render of the wrapper element creates a fresh consumer running

```
let index = 0;
while (true) {
  if (index < sink.length) { yield sink[index++]; continue; }
  else if (completed) { break; }
  else if (nextPromise == null) {
    nextPromise = generator.next().then((result) => {
      if (result.done) { completed = true; }
      else { sink.push(memo(result.value)); }
      nextPromise = null;
    });
  }
  await nextPromise;
}
```

Execution is single-threaded and cooperative: a loop iteration runs
atomically up to its suspension point (`yield` or `await`), and the `.then`
callback that resolves a pull runs atomically.  The model below therefore has
one atomic transition per such segment, and allows consumers and pull
resolutions to interleave arbitrarily — a superset of the schedules the
JavaScript event loop can produce.  The underlying generator is a list of
values still to be yielded plus a final return value `retVal`; note that the
`.then` callback reads only `result.done` once the iterator is done, so
`retVal` is never consulted by any transition. -/

/-- One consumer (one `MemoizedGenerator()` instance): its cursor into the
sink, the values it has yielded so far, and whether its loop has exited. -/
structure ConsSt where
  idx : Nat
  obs : List JNode
  done : Bool

/-- The shared state of one memoized generator together with its consumers
and the instrumentation counters `pulls` (calls of `generator.next()`
started) and `resolves` (those whose `.then` callback has run). -/
structure GenSys where
  frames : List JNode
  retVal : Option JNode
  sink : List JNode
  completed : Bool
  pending : Bool
  pulls : Nat
  resolves : Nat
  cons : List ConsSt

/-- State right after `memo` is applied to a generator that will yield `ys`
and return `r`: empty sink, no consumer yet. -/
def GenSys.init (ys : List JNode) (r : Option JNode) : GenSys :=
  ⟨ys, r, [], false, false, 0, 0, []⟩

/-- Atomic transitions: consumer `c` yields a buffered frame; consumer `c`
starts a pull (`nextPromise = generator.next().then(...)`); the pending pull
resolves (the `.then` callback runs); consumer `c` exits its loop; a new
consumer joins (the wrapper element is rendered once more). -/
inductive Act where
  | yieldA (c : Nat)
  | start (c : Nat)
  | resolve
  | finish (c : Nat)
  | join

/-- One transition.  `none` means the action is not enabled (its guard, read
off the loop above, does not hold). -/
def step (s : GenSys) : Act → Option GenSys
  | .yieldA c =>
    match s.cons[c]? with
    | none => none
    | some con =>
      if con.done then none
      else
        match s.sink[con.idx]? with
        | none => none
        | some v => some { s with cons := s.cons.set c ⟨con.idx + 1, con.obs ++ [v], false⟩ }
  | .start c =>
    match s.cons[c]? with
    | none => none
    | some con =>
      if con.done = false ∧ s.sink.length ≤ con.idx ∧ s.completed = false ∧ s.pending = false then
        some { s with pending := true, pulls := s.pulls + 1 }
      else none
  | .resolve =>
    if s.pending then
      match s.frames with
      | [] => some { s with pending := false, resolves := s.resolves + 1, completed := true }
      | v :: rest =>
        some { s with pending := false, resolves := s.resolves + 1,
                      sink := s.sink ++ [memoN v], frames := rest }
    else none
  | .finish c =>
    match s.cons[c]? with
    | none => none
    | some con =>
      if con.done = false ∧ s.sink.length ≤ con.idx ∧ s.completed = true then
        some { s with cons := s.cons.set c ⟨con.idx, con.obs, true⟩ }
      else none
  | .join => some { s with cons := s.cons ++ [⟨0, [], false⟩] }

/-- Run a schedule of transitions; fails if any action is not enabled. -/
def exec (s : GenSys) : List Act → Option GenSys
  | [] => some s
  | a :: acts =>
    match step s a with
    | none => none
    | some s' => exec s' acts

/-- The system invariant for a memoized generator created over yields `ys`:
the sink is the memoized prefix of `ys` of the length pulled so far, the
counters tie to the sink, at most one pull is unresolved, and every
consumer's observations are exactly its prefix of the sink. -/
def Inv (ys : List JNode) (s : GenSys) : Prop :=
  s.sink.length ≤ ys.length ∧
  s.sink = (ys.take s.sink.length).map memoN ∧
  s.frames = ys.drop s.sink.length ∧
  s.pulls = s.resolves + (if s.pending then 1 else 0) ∧
  s.resolves = s.sink.length + (if s.completed then 1 else 0) ∧
  (s.pending = true → s.completed = false) ∧
  (s.completed = true → s.sink.length = ys.length) ∧
  ∀ con ∈ s.cons, con.obs = s.sink.take con.idx ∧ con.idx ≤ s.sink.length ∧
    (con.done = true → s.completed = true ∧ con.idx = s.sink.length)

theorem Inv_init (ys : List JNode) (r : Option JNode) : Inv ys (GenSys.init ys r) := by
  refine ⟨by simp [GenSys.init], by simp [GenSys.init], by simp [GenSys.init],
    by simp [GenSys.init], by simp [GenSys.init], by simp [GenSys.init],
    by simp [GenSys.init], ?_⟩
  intro con hcon
  simp [GenSys.init] at hcon

theorem Inv_step {ys : List JNode} {s s' : GenSys} {a : Act}
    (hinv : Inv ys s) (hstep : step s a = some s') : Inv ys s' := by
  obtain ⟨hlen, hsink, hframes, hpulls, hres, hpc, hclen, hcons⟩ := hinv
  cases a with
  | yieldA c =>
    simp only [step] at hstep
    split at hstep
    · exact absurd hstep (by simp)
    · rename_i con hget
      split at hstep
      · exact absurd hstep (by simp)
      · rename_i hdone
        split at hstep
        · exact absurd hstep (by simp)
        · rename_i v hsget
          cases hstep
          obtain ⟨hobs, hidx, -⟩ := hcons con (List.getElem?_mem hget)
          refine ⟨hlen, hsink, hframes, hpulls, hres, hpc, hclen, ?_⟩
          intro con' hcon'
          rcases List.mem_or_eq_of_mem_set hcon' with h | h
          · exact hcons con' h
          · subst h
            have hlt : con.idx < s.sink.length := by
              by_contra hc
              push_neg at hc
              rw [List.getElem?_eq_none_iff.mpr hc] at hsget
              cases hsget
            refine ⟨?_, hlt, by simp⟩
            show con.obs ++ [v] = s.sink.take (con.idx + 1)
            rw [hobs, List.take_succ, hsget]
            rfl
  | start c =>
    simp only [step] at hstep
    split at hstep
    · exact absurd hstep (by simp)
    · rename_i con hget
      split at hstep
      · rename_i hguard
        obtain ⟨-, -, hcompl, hpend⟩ := hguard
        cases hstep
        refine ⟨hlen, hsink, hframes, ?_, hres, fun _ => hcompl, hclen, hcons⟩
        show s.pulls + 1 = s.resolves + (if (true = true) then 1 else 0)
        rw [hpulls, hpend]
        simp
      · exact absurd hstep (by simp)
  | resolve =>
    simp only [step] at hstep
    split at hstep
    · rename_i hpend
      have hpend' : s.pending = true := hpend
      have hcompl : s.completed = false := hpc hpend'
      split at hstep
      · rename_i hfr
        cases hstep
        have hkeq : s.sink.length = ys.length := by
          have hh := hframes
          rw [hfr] at hh
          have hle := List.drop_eq_nil_iff.mp hh.symm
          omega
        refine ⟨hlen, hsink, hfr ▸ hframes, ?_, ?_, by simp, fun _ => hkeq, ?_⟩
        · show s.pulls = s.resolves + 1 + (if (false = true) then 1 else 0)
          rw [hpulls, hpend']
          simp
        · show s.resolves + 1 = s.sink.length + (if (true = true) then 1 else 0)
          rw [hres, hcompl]
          simp
        · intro con hcon
          obtain ⟨hobs, hidx, hdn⟩ := hcons con hcon
          exact ⟨hobs, hidx, fun hd => absurd (hdn hd).1 (by simp [hcompl])⟩
      · rename_i v rest hfr
        cases hstep
        have hdropeq : List.drop s.sink.length ys = v :: rest := hframes.symm.trans hfr
        have hvget : ys[s.sink.length]? = some v := by
          have h0 : (List.drop s.sink.length ys)[0]? = some v := by rw [hdropeq]; simp
          rwa [List.getElem?_drop, Nat.add_zero] at h0
        have hklt : s.sink.length < ys.length := by
          by_contra hc
          push_neg at hc
          rw [List.getElem?_eq_none_iff.mpr hc] at hvget
          cases hvget
        have hlen1 : (s.sink ++ [memoN v]).length = s.sink.length + 1 := by simp
        refine ⟨?_, ?_, ?_, ?_, ?_, by simp, by simp [hcompl], ?_⟩
        · show (s.sink ++ [memoN v]).length ≤ ys.length
          rw [hlen1]
          omega
        · show s.sink ++ [memoN v] = (ys.take (s.sink ++ [memoN v]).length).map memoN
          rw [hlen1, List.take_succ, hvget]
          simp only [Option.toList_some, List.map_append, List.map_cons, List.map_nil]
          rw [← hsink]
        · show rest = ys.drop (s.sink ++ [memoN v]).length
          rw [hlen1, ← List.tail_drop, ← hframes, hfr]
          rfl
        · show s.pulls = s.resolves + 1 + (if (false = true) then 1 else 0)
          rw [hpulls, hpend']
          simp
        · show s.resolves + 1 =
              (s.sink ++ [memoN v]).length + (if s.completed = true then 1 else 0)
          rw [hlen1, hres, hcompl]
          simp
        · intro con hcon
          obtain ⟨hobs, hidx, hdn⟩ := hcons con hcon
          refine ⟨?_, ?_, fun hd => absurd (hdn hd).1 (by simp [hcompl])⟩
          · show con.obs = (s.sink ++ [memoN v]).take con.idx
            rw [hobs, List.take_append_of_le_length hidx]
          · show con.idx ≤ (s.sink ++ [memoN v]).length
            rw [hlen1]
            omega
    · exact absurd hstep (by simp)
  | finish c =>
    simp only [step] at hstep
    split at hstep
    · exact absurd hstep (by simp)
    · rename_i con hget
      split at hstep
      · rename_i hguard
        obtain ⟨-, hle, hcompl⟩ := hguard
        cases hstep
        obtain ⟨hobs, hidx, -⟩ := hcons con (List.getElem?_mem hget)
        refine ⟨hlen, hsink, hframes, hpulls, hres, hpc, hclen, ?_⟩
        intro con' hcon'
        rcases List.mem_or_eq_of_mem_set hcon' with h | h
        · exact hcons con' h
        · subst h
          exact ⟨hobs, hidx, fun _ => ⟨hcompl, Nat.le_antisymm hidx hle⟩⟩
      · exact absurd hstep (by simp)
  | join =>
    simp only [step] at hstep
    cases hstep
    refine ⟨hlen, hsink, hframes, hpulls, hres, hpc, hclen, ?_⟩
    intro con hcon
    rcases List.mem_append.mp hcon with h | h
    · exact hcons con h
    · simp only [List.mem_singleton] at h
      subst h
      exact ⟨by simp, by simp, by simp⟩

/-- Invariant holds in every reachable state. -/
theorem Inv_exec {ys : List JNode} :
    ∀ {acts : List Act} {s₀ s : GenSys}, Inv ys s₀ → exec s₀ acts = some s → Inv ys s := by
  intro acts
  induction acts with
  | nil =>
    intro s₀ s h0 hx
    simp only [exec] at hx
    cases hx
    exact h0
  | cons a acts ih =>
    intro s₀ s h0 hx
    simp only [exec] at hx
    cases hstep : step s₀ a with
    | none => rw [hstep] at hx; exact absurd hx (by simp)
    | some s₁ =>
      rw [hstep] at hx
      exact ih (Inv_step h0 hstep) hx

theorem take_prefix_of_le {m n : Nat} (l : List JNode) (h : m ≤ n) :
    ∃ t, l.take m ++ t = l.take n := by
  refine ⟨(l.take n).drop m, ?_⟩
  conv_lhs =>
    rw [show l.take m = (l.take n).take m from by rw [List.take_take, Nat.min_eq_left h]]
  exact List.take_append_drop _ _

/-- Buffer replay: a live consumer whose cursor is inside the sink can run
its loop alone, yielding buffered frames only, until it has observed the
whole sink — without starting a pull or changing any shared state. -/
theorem replay_buffer (c : Nat) :
    ∀ (n : Nat) (s : GenSys) (con : ConsSt),
      s.cons[c]? = some con → con.done = false → con.obs = s.sink.take con.idx →
      con.idx + n = s.sink.length →
      ∃ s', exec s (List.replicate n (.yieldA c)) = some s' ∧
        s'.frames = s.frames ∧ s'.sink = s.sink ∧ s'.completed = s.completed ∧
        s'.pending = s.pending ∧ s'.pulls = s.pulls ∧ s'.resolves = s.resolves ∧
        s'.cons[c]? = some ⟨s.sink.length, s.sink, false⟩ := by
  intro n
  induction n with
  | zero =>
    intro s con hget hdone hobs hidx
    refine ⟨s, rfl, rfl, rfl, rfl, rfl, rfl, rfl, ?_⟩
    rw [hget]
    obtain ⟨i, o, d⟩ := con
    simp only at hdone hobs hidx
    rw [Nat.add_zero] at hidx
    subst hdone
    subst hidx
    rw [hobs, List.take_length]
  | succ n ih =>
    intro s con hget hdone hobs hidx
    have hlt : con.idx < s.sink.length := by omega
    obtain ⟨v, hsget⟩ : ∃ v, s.sink[con.idx]? = some v := by
      rw [List.getElem?_eq_getElem hlt]
      exact ⟨_, rfl⟩
    have hclt : c < s.cons.length := by
      by_contra hc
      push_neg at hc
      rw [List.getElem?_eq_none_iff.mpr hc] at hget
      cases hget
    have hstep : step s (.yieldA c) =
        some { s with cons := s.cons.set c ⟨con.idx + 1, con.obs ++ [v], false⟩ } := by
      simp [step, hget, hdone, hsget]
    have hget2 : ({ s with cons := s.cons.set c ⟨con.idx + 1, con.obs ++ [v], false⟩ } :
        GenSys).cons[c]? = some ⟨con.idx + 1, con.obs ++ [v], false⟩ := by
      exact List.getElem?_set_self hclt
    obtain ⟨s', hex, hfr, hsk, hcm, hpd, hpl, hrs, hcget⟩ :=
      ih _ _ hget2 rfl (by
        simp only
        rw [hobs, List.take_succ, hsget]
        rfl) (by simp only; omega)
    refine ⟨s', ?_, hfr, hsk, hcm, hpd, hpl, hrs, hcget⟩
    rw [List.replicate_succ]
    simp only [exec, hstep]
    exact hex

/-- Claim C3: any two consumers of the same memoized lazy producer observe
the same sequence of buffered frames in the same order (each consumer's
observations are a prefix of the sink, so one consumer's observations are a
prefix of the other's); and a live consumer whose cursor lags `k` frames
behind the buffer can receive those `k` frames from the buffer alone — no
pull is started, no shared state changes — before awaiting any live frame. -/
theorem memo_gen_consumers_agree (ys : List JNode) (r : Option JNode) (acts : List Act)
    (s : GenSys) (hexec : exec (GenSys.init ys r) acts = some s) :
    (∀ c1 ∈ s.cons, ∀ c2 ∈ s.cons,
        (∃ t, c1.obs ++ t = c2.obs) ∨ (∃ t, c2.obs ++ t = c1.obs)) ∧
      ∀ (c : Nat) (con : ConsSt), s.cons[c]? = some con → con.done = false →
        ∃ s', exec s (List.replicate (s.sink.length - con.idx) (.yieldA c)) = some s' ∧
          s'.pulls = s.pulls ∧ s'.pending = s.pending ∧ s'.sink = s.sink ∧
          s'.cons[c]? = some ⟨s.sink.length, s.sink, false⟩ := by
  obtain ⟨hlen, hsink, hframes, hpulls, hres, hpc, hclen, hcons⟩ :=
    Inv_exec (Inv_init ys r) hexec
  constructor
  · intro c1 h1 c2 h2
    obtain ⟨hobs1, hidx1, -⟩ := hcons c1 h1
    obtain ⟨hobs2, hidx2, -⟩ := hcons c2 h2
    rcases Nat.le_total c1.idx c2.idx with h | h
    · left
      rw [hobs1, hobs2]
      exact take_prefix_of_le s.sink h
    · right
      rw [hobs1, hobs2]
      exact take_prefix_of_le s.sink h
  · intro c con hget hdone
    obtain ⟨hobs, hidx, -⟩ := hcons con (List.getElem?_mem hget)
    obtain ⟨s', hex, hfr, hsk, hcm, hpd, hpl, hrs, hcget⟩ :=
      replay_buffer c (s.sink.length - con.idx) s con hget hdone hobs (by omega)
    exact ⟨s', hex, hpl, hpd, hsk, hcget⟩

theorem memo_gen_consumers_agree_witness :
    (∀ c1 ∈ [ConsSt.mk 1 [JNode.scalar (.num 5)] false, ConsSt.mk 0 [] false],
      ∀ c2 ∈ [ConsSt.mk 1 [JNode.scalar (.num 5)] false, ConsSt.mk 0 [] false],
        (∃ t, c1.obs ++ t = c2.obs) ∨ (∃ t, c2.obs ++ t = c1.obs)) ∧
      ∀ (c : Nat) (con : ConsSt),
        ([ConsSt.mk 1 [JNode.scalar (.num 5)] false, ConsSt.mk 0 [] false] : List ConsSt)[c]? =
            some con →
          con.done = false →
          ∃ s', exec ⟨[.scalar (.num 7)], none, [.scalar (.num 5)], false, false, 1, 1,
                  [ConsSt.mk 1 [JNode.scalar (.num 5)] false, ConsSt.mk 0 [] false]⟩
                (List.replicate (([JNode.scalar (.num 5)] : List JNode).length - con.idx)
                  (.yieldA c)) = some s' ∧
            s'.pulls = 1 ∧ s'.pending = false ∧ s'.sink = [.scalar (.num 5)] ∧
            s'.cons[c]? = some ⟨([JNode.scalar (.num 5)] : List JNode).length,
              [.scalar (.num 5)], false⟩ :=
  memo_gen_consumers_agree [.scalar (.num 5), .scalar (.num 7)] none
    [.join, .start 0, .resolve, .yieldA 0, .join] _ rfl

/-- Claim C4: for a memoized lazy producer, at every reachable state at most
one call to the underlying iterator is outstanding (`pulls - resolves ≤ 1`,
and the pending flag accounts for it exactly); and any transition that starts
a pull is a `start` action by a consumer that has exhausted the buffer, taken
only when no pull is pending and the producer is not completed — all waiting
consumers then share that single pending pull. -/
theorem memo_gen_single_pull (ys : List JNode) (r : Option JNode) (acts : List Act)
    (s : GenSys) (hexec : exec (GenSys.init ys r) acts = some s) :
    s.pulls - s.resolves ≤ 1 ∧
      s.pulls = s.resolves + (if s.pending = true then 1 else 0) ∧
      ∀ (s₁ s₂ : GenSys) (a : Act), step s₁ a = some s₂ → s₁.pulls < s₂.pulls →
        ∃ c con, a = .start c ∧ s₁.cons[c]? = some con ∧ con.done = false ∧
          s₁.sink.length ≤ con.idx ∧ s₁.completed = false ∧ s₁.pending = false := by
  obtain ⟨hlen, hsink, hframes, hpulls, hres, hpc, hclen, hcons⟩ :=
    Inv_exec (Inv_init ys r) hexec
  refine ⟨by rw [hpulls]; split <;> omega, hpulls, ?_⟩
  intro s₁ s₂ a hstep hlt
  cases a with
  | yieldA c =>
    exfalso
    simp only [step] at hstep
    split at hstep
    · exact absurd hstep (by simp)
    · split at hstep
      · exact absurd hstep (by simp)
      · split at hstep
        · exact absurd hstep (by simp)
        · cases hstep
          simp at hlt
  | start c =>
    simp only [step] at hstep
    split at hstep
    · exact absurd hstep (by simp)
    · rename_i con hget
      split at hstep
      · rename_i hguard
        obtain ⟨h1, h2, h3, h4⟩ := hguard
        exact ⟨c, con, rfl, hget, h1, h2, h3, h4⟩
      · exact absurd hstep (by simp)
  | resolve =>
    exfalso
    simp only [step] at hstep
    split at hstep
    · split at hstep
      · cases hstep
        simp at hlt
      · cases hstep
        simp at hlt
    · exact absurd hstep (by simp)
  | finish c =>
    exfalso
    simp only [step] at hstep
    split at hstep
    · exact absurd hstep (by simp)
    · split at hstep
      · cases hstep
        simp at hlt
      · exact absurd hstep (by simp)
  | join =>
    exfalso
    simp only [step] at hstep
    cases hstep
    simp at hlt

theorem memo_gen_single_pull_witness :
    (1 : Nat) - 1 ≤ 1 ∧
      (1 : Nat) = 1 + (if (false = true) then 1 else 0) ∧
      ∀ (s₁ s₂ : GenSys) (a : Act), step s₁ a = some s₂ → s₁.pulls < s₂.pulls →
        ∃ c con, a = .start c ∧ s₁.cons[c]? = some con ∧ con.done = false ∧
          s₁.sink.length ≤ con.idx ∧ s₁.completed = false ∧ s₁.pending = false := by
  have h := memo_gen_single_pull [.scalar (.num 5)] none [.join, .start 0, .resolve]
    ⟨[], none, [.scalar (.num 5)], false, false, 1, 1, [⟨0, [], false⟩]⟩ rfl
  exact h

/-- Modelled from the spec: the streaming renderer is not among the source
files.  Per the spec (section 4.C, step 3), when rendering a lazy producer
"each yielded value is rendered (recursively) to text and becomes the child's
current frame. The final return value of the iterator, if any, replaces the
last frame."  At the level of yielded nodes: the frame sequence of a lazy
producer is its yields, with the final return value, when present, replacing
the last frame. -/
def renderGenFrames (ys : List JNode) : Option JNode → List JNode
  | none => ys
  | some v => ys.dropLast ++ [v]

/-- Counterexample to claim C1: for the lazy producer that yields the scalar
`0` and returns the scalar `1` as its final value, the raw producer's frames
end with `1` (the return value replaces the last frame), but the memoized
generator buffers only yielded values — the `.then` callback reads nothing
but `result.done` once the iterator is done — so a consumer that fully
drains `memo(n)` observes `[0]`, not `[1]`: `memo(n)` is not behaviorally
equivalent to `n`. -/
theorem memo_gen_drops_final_value_cex :
    exec (GenSys.init [.scalar (.num 0)] (some (.scalar (.num 1))))
        [.join, .start 0, .resolve, .yieldA 0, .start 0, .resolve, .finish 0] =
      some ⟨[], some (.scalar (.num 1)), [.scalar (.num 0)], true, false, 2, 2,
        [⟨1, [.scalar (.num 0)], true⟩]⟩ ∧
      renderGenFrames [.scalar (.num 0)] (some (.scalar (.num 1))) = [.scalar (.num 1)] ∧
      [JNode.scalar (.num 0)] ≠ [JNode.scalar (.num 1)] := by
  refine ⟨rfl, rfl, ?_⟩
  simp

/-- Claim C1 (amended): rendering `memo(n)` yields, for each value yielded by
the underlying producer, the recursively memoized value, in order: every
consumer that drains the memoized generator observes exactly
`ys.map memo`.  The final return value of the underlying iterator, however,
is discarded by memoization (the drained observations are `ys.map memo`
whatever the return value is), so the frames agree with those of `n` —
which end with the final return value when there is one — exactly when the
iterator has no final return value; on yields fixed by `memo` (e.g. scalar
frames) the sequences are then literally equal. -/
theorem memo_gen_frames_amended (ys : List JNode) (r : Option JNode) (acts : List Act)
    (s : GenSys) (hexec : exec (GenSys.init ys r) acts = some s) :
    (∀ con ∈ s.cons, con.done = true → con.obs = ys.map memoN) ∧
      renderGenFrames ys none = ys ∧
      ∀ v : JScalar, memoN (.scalar v) = .scalar v := by
  obtain ⟨hlen, hsink, hframes, hpulls, hres, hpc, hclen, hcons⟩ :=
    Inv_exec (Inv_init ys r) hexec
  refine ⟨?_, rfl, fun v => rfl⟩
  intro con hcon hd
  obtain ⟨hobs, hidx, hdn⟩ := hcons con hcon
  obtain ⟨hcompl, hidxeq⟩ := hdn hd
  have hkeq := hclen hcompl
  rw [hobs, hidxeq, List.take_length, hsink, hkeq, List.take_length]

theorem memo_gen_frames_amended_witness :
    (∀ con ∈ [ConsSt.mk 1 [JNode.scalar (.num 0)] true], con.done = true →
        con.obs = ([JNode.scalar (.num 0)] : List JNode).map memoN) ∧
      renderGenFrames [JNode.scalar (.num 0)] none = [JNode.scalar (.num 0)] ∧
      ∀ v : JScalar, memoN (.scalar v) = .scalar v :=
  memo_gen_frames_amended [.scalar (.num 0)] (some (.scalar (.num 1)))
    [.join, .start 0, .resolve, .yieldA 0, .start 0, .resolve, .finish 0]
    ⟨[], some (.scalar (.num 1)), [.scalar (.num 0)], true, false, 2, 2,
      [⟨1, [.scalar (.num 0)], true⟩]⟩ rfl

/-- Counterexample to claim C5: memoization of a lazy producer is NOT
re-evaluated under a second render context.  The buffer (`sink`,
`completed`, `nextPromise`) is captured by `memo` itself, not keyed by
context, and every render of the wrapper — under any context — only adds a
consumer over the shared state.  Here a first consumer fully drains the
producer (2 underlying pulls); a second consumer, created by rendering the
same memoized node under a different render context, replays the shared
buffer and completes with zero additional pulls: the underlying work is not
re-evaluated under the second context. -/
theorem memo_scope_shared_gen_cex :
    exec (GenSys.init [.scalar (.num 0)] none)
        [.join, .start 0, .resolve, .yieldA 0, .start 0, .resolve, .finish 0] =
      some ⟨[], none, [.scalar (.num 0)], true, false, 2, 2,
        [⟨1, [.scalar (.num 0)], true⟩]⟩ ∧
    exec (⟨[], none, [.scalar (.num 0)], true, false, 2, 2,
        [⟨1, [.scalar (.num 0)], true⟩]⟩ : GenSys) [.join, .yieldA 1, .finish 1] =
      some ⟨[], none, [.scalar (.num 0)], true, false, 2, 2,
        [⟨1, [.scalar (.num 0)], true⟩, ⟨1, [.scalar (.num 0)], true⟩]⟩ ∧
    (⟨[], none, [.scalar (.num 0)], true, false, 2, 2,
        [⟨1, [.scalar (.num 0)], true⟩, ⟨1, [.scalar (.num 0)], true⟩]⟩ : GenSys).pulls =
      (⟨[], none, [.scalar (.num 0)], true, false, 2, 2,
        [⟨1, [.scalar (.num 0)], true⟩]⟩ : GenSys).pulls :=
  ⟨rfl, rfl, rfl⟩

/-- Claim C5 (amended): memoization is per render-context for ELEMENTS: a
memoized element rendered under one context and then under a different
context re-invokes its inner render under the second context (both trace
entries are cache misses that run the inner render).  For lazy producers (and
eventuals) the memoized value is shared across all contexts: across every
schedule, over all consumers under all contexts together, the underlying
iterator is pulled at most `|ys| + 1` times — a single evaluation. -/
theorem memo_scope_amended (inner : Ctx → JNode) (c1 c2 : Ctx) (hne : ¬c1 = c2)
    (ys : List JNode) (r : Option JNode) (acts : List Act) (s : GenSys)
    (hexec : exec (GenSys.init ys r) acts = some s) :
    runRenders inner [] [c1, c2] =
        [(c1, memoN (inner c1), true), (c2, memoN (inner c2), true)] ∧
      s.pulls ≤ ys.length + 1 := by
  constructor
  · simp [runRenders, renderMemoized, lookupCtx, hne]
  · obtain ⟨hlen, hsink, hframes, hpulls, hres, hpc, hclen, hcons⟩ :=
      Inv_exec (Inv_init ys r) hexec
    rw [hpulls, hres]
    by_cases hp : s.pending = true
    · rw [if_pos hp, hpc hp]
      simp
      omega
    · rw [if_neg hp]
      have hc : (if s.completed = true then 1 else 0) ≤ 1 := by split <;> omega
      omega

theorem memo_scope_amended_witness :
    runRenders (fun _ => .scalar .nullish) [] [0, 1] =
        [(0, memoN (.scalar .nullish), true), (1, memoN (.scalar .nullish), true)] ∧
      (⟨[.scalar (.num 0)], none, [], false, false, 0, 0,
        [⟨0, [], false⟩]⟩ : GenSys).pulls ≤
        ([JNode.scalar (.num 0)] : List JNode).length + 1 :=
  memo_scope_amended (fun _ => .scalar .nullish) 0 1 (by decide)
    [.scalar (.num 0)] none [.join]
    ⟨[.scalar (.num 0)], none, [], false, false, 0, 0, [⟨0, [], false⟩]⟩ rfl

/-! ## Error taxonomy and the tool/chat collaborators -/

/-- Error kinds, from the error taxonomy (`{user, runtime, internal}`). -/
inductive ErrorKind where
  | user
  | runtime
  | internal
deriving DecidableEq, Repr

/-- Modelled from the spec: the `ErrorCode` enumeration (`core/errors`) is
not among the source files; the spec only requires "stable numeric codes for
at least" the listed conditions.  The members here are the codes referenced
by the in-source files plus the spec's code table.  Both
`ChatModelDoesNotSupportFunctions` (thrown by `AnthropicChatModel`) and
`ChatModelDoesntSupportFunctions` (matched by `UseTools`) are referenced by
source code, hence modelled as distinct members. -/
inductive ErrorCode where
  | ModelOutputCouldNotBeParsed
  | ModelOutputCouldNotBeParsedForTool
  | ModelHallucinatedTool
  | ChatModelDoesNotSupportFunctions
  | ChatModelDoesntSupportFunctions
  | ChatCompletionUnexpectedChild
  | ChatCompletionMissingChildren
  | AnthropicDoesNotSupportCompletionModels
  | AnthropicDoesNotSupportFunctions
  | AnthropicAPIError
deriving DecidableEq, Repr

/-- JSON values, for `JSON.parse` results and zod validation. -/
inductive Json where
  | null
  | str (s : String)
  | num (n : Int)
  | bool (b : Bool)
  | arr (xs : List Json)
  | obj (fields : List (String × Json))

/-- `z.infer<typeof toolChoiceSchema>`: `{ nameOfTool: string, parameters:
record(string, any), responseToUser: string }`. -/
structure ToolChoice where
  nameOfTool : String
  parameters : List (String × Json)
  responseToUser : String

/-- The `data` payload attached to an `AIJSXError`:
`{ toolChoiceLLMOutput }` carries the raw rendered output,
`{ toolChoiceResult }` carries the parsed tool choice. -/
inductive ErrData where
  | noData
  | rawOutput (s : String)
  | toolChoiceData (tc : ToolChoice)

/-- A structured error: `{code, kind, message, data}` (the free-text
`message` is omitted). -/
structure AIJSXError where
  code : ErrorCode
  kind : ErrorKind
  data : ErrData

/-- Object-field lookup for zod validation. -/
def lookupField : List (String × Json) → String → Option Json
  | [], _ => none
  | (k, v) :: rest, k' => if k = k' then some v else lookupField rest k'

/-- `toolChoiceSchema.parse`: succeeds on an object whose `nameOfTool` is a
string, whose `parameters` is an object (a record), and whose
`responseToUser` is a string; fails on anything else.  (zod's `z.object`
strips unknown keys, so extra fields are ignored.) -/
def parseToolChoice : Json → Option ToolChoice
  | .obj fields =>
    match lookupField fields "nameOfTool", lookupField fields "parameters",
        lookupField fields "responseToUser" with
    | some (.str nm), some (.obj ps), some (.str resp) => some ⟨nm, ps, resp⟩
    | _, _, _ => none
  | _ => none

/-- The result of `InvokeTool`'s dispatch: either the fallback node (LLM
answered `null`) or the tool choice to invoke (the subsequent
`tool.func(...)` call and closing `ChatCompletion` consume `tc`). -/
inductive InvokeToolResult where
  | fallbackNode
  | toolResult (tc : ToolChoice)

/-- `InvokeTool` from `use-tools`: `raw` is the rendered tool-choice output,
`parsed` the outcome of `JSON.parse(raw)` (`none` models a parse throw,
caught together with schema-validation failures by the surrounding
`try/catch`).  `tools` is the set of keys of the supplied tools record. -/
def invokeTool (tools : List String) (raw : String) (parsed : Option Json) :
    Except AIJSXError InvokeToolResult :=
  match parsed with
  | none => .error ⟨.ModelOutputCouldNotBeParsedForTool, .runtime, .rawOutput raw⟩
  | some .null => .ok .fallbackNode
  | some j =>
    match parseToolChoice j with
    | none => .error ⟨.ModelOutputCouldNotBeParsedForTool, .runtime, .rawOutput raw⟩
    | some tc =>
      if tc.nameOfTool ∈ tools then .ok (.toolResult tc)
      else .error ⟨.ModelHallucinatedTool, .runtime, .toolChoiceData tc⟩

/-- Claim C7: `InvokeTool` fails with `ModelOutputCouldNotBeParsedForTool`
(kind runtime, carrying the raw output) when `JSON.parse` throws, and
likewise when the parsed JSON (other than `null`, which is returned to the
fallback first) fails the tool-choice schema; JSON `null` yields the
fallback node without error; and a schema-valid choice naming a tool that is
not a key of the tools record fails with `ModelHallucinatedTool` (kind
runtime). -/
theorem invokeTool_errors (tools : List String) (raw : String) (j : Json) (tc : ToolChoice) :
    invokeTool tools raw none =
        .error ⟨.ModelOutputCouldNotBeParsedForTool, .runtime, .rawOutput raw⟩ ∧
      (j ≠ .null → parseToolChoice j = none → invokeTool tools raw (some j) =
        .error ⟨.ModelOutputCouldNotBeParsedForTool, .runtime, .rawOutput raw⟩) ∧
      invokeTool tools raw (some .null) = .ok .fallbackNode ∧
      (parseToolChoice j = some tc → tc.nameOfTool ∉ tools →
        invokeTool tools raw (some j) =
          .error ⟨.ModelHallucinatedTool, .runtime, .toolChoiceData tc⟩) := by
  refine ⟨rfl, ?_, rfl, ?_⟩
  · intro hnull hparse
    cases j with
    | null => exact absurd rfl hnull
    | str a => simp [invokeTool, hparse]
    | num a => simp [invokeTool, hparse]
    | bool a => simp [invokeTool, hparse]
    | arr a => simp [invokeTool, hparse]
    | obj a => simp [invokeTool, hparse]
  · intro hp hmem
    cases j with
    | null => exact absurd hp (by simp [parseToolChoice])
    | str a => exact absurd hp (by simp [parseToolChoice])
    | num a => exact absurd hp (by simp [parseToolChoice])
    | bool a => exact absurd hp (by simp [parseToolChoice])
    | arr a => exact absurd hp (by simp [parseToolChoice])
    | obj a => simp [invokeTool, hp, hmem]

theorem invokeTool_errors_witness :
    invokeTool ["evaluate_expression"] "oops" none =
        .error ⟨.ModelOutputCouldNotBeParsedForTool, .runtime, .rawOutput "oops"⟩ ∧
      invokeTool ["evaluate_expression"] "oops" (some (.str "x")) =
        .error ⟨.ModelOutputCouldNotBeParsedForTool, .runtime, .rawOutput "oops"⟩ ∧
      invokeTool ["evaluate_expression"] "oops" (some .null) = .ok .fallbackNode ∧
      invokeTool ["evaluate_expression"] "oops"
          (some (.obj [("nameOfTool", .str "fly"), ("parameters", .obj []),
            ("responseToUser", .str "ok")])) =
        .error ⟨.ModelHallucinatedTool, .runtime, .toolChoiceData ⟨"fly", [], "ok"⟩⟩ := by
  have h1 := invokeTool_errors ["evaluate_expression"] "oops" (.str "x") ⟨"fly", [], "ok"⟩
  have h2 := invokeTool_errors ["evaluate_expression"] "oops"
    (.obj [("nameOfTool", .str "fly"), ("parameters", .obj []),
      ("responseToUser", .str "ok")]) ⟨"fly", [], "ok"⟩
  refine ⟨h1.1, h1.2.1 (by intro h; cases h) rfl, h1.2.2.1, h2.2.2.2 rfl ?_⟩
  intro h
  simp at h

/-- The message-shaped elements that `AnthropicChatModel` stops rendering at:
SystemMessage, UserMessage, AssistantMessage, FunctionCall and
FunctionResponse.  The `stop` predicate is true exactly for these five tags,
so the element items of the stopped render result carry one of them. -/
inductive MsgTag where
  | system
  | userMsg
  | assistant
  | functionCall
  | functionResponse
deriving DecidableEq, Repr

/-- The SystemMessage conversion in `AnthropicChatModel`: a SystemMessage
child is flat-mapped to a UserMessage/AssistantMessage pair ("For subsequent
replies you will adhere to ..." / "Okay, I will do that."); every other
message element passes through unchanged. -/
def convertSystemMessages (ms : List MsgTag) : List MsgTag :=
  ms.flatMap fun t =>
    match t with
    | .system => [.userMsg, .assistant]
    | t => [t]

/-- The per-message mapper of `AnthropicChatModel`: UserMessage and
AssistantMessage render into prompt strings; FunctionCall and
FunctionResponse throw `AnthropicDoesNotSupportFunctions` (kind user); the
default case throws `ChatCompletionUnexpectedChild` (kind internal) — it is
unreachable after the conversion but kept for fidelity. -/
def mapMessage : MsgTag → Except AIJSXError Unit
  | .userMsg => .ok ()
  | .assistant => .ok ()
  | .functionCall => .error ⟨.AnthropicDoesNotSupportFunctions, .user, .noData⟩
  | .functionResponse => .error ⟨.AnthropicDoesNotSupportFunctions, .user, .noData⟩
  | .system => .error ⟨.ChatCompletionUnexpectedChild, .internal, .noData⟩

/-- `Promise.all` over the mapped messages: the first rejection (in array
order; each mapper settles synchronously) surfaces, otherwise the message
list goes through. -/
def mapMessages : List MsgTag → Except AIJSXError (List MsgTag)
  | [] => .ok []
  | t :: ts =>
    match mapMessage t with
    | .error e => .error e
    | .ok _ =>
      match mapMessages ts with
      | .error e => .error e
      | .ok rest => .ok (t :: rest)

/-- `AnthropicChatModel`, up to the construction of its prompt: with
`functionDefinitions` in props it throws `ChatModelDoesNotSupportFunctions`
(kind user) before yielding anything; otherwise it yields the append-only
sentinel (the `List Unit` component lists the yields made before the message
check), converts SystemMessages, maps the messages, and throws
`ChatCompletionMissingChildren` (kind user) when no prompt messages result.
`stopped` is the element part of rendering `props.children` stopped at
message elements. -/
def anthropicChatModel (hasFunctionDefinitions : Bool) (stopped : List MsgTag) :
    List Unit × Except AIJSXError (List MsgTag) :=
  if hasFunctionDefinitions then
    ([], .error ⟨.ChatModelDoesNotSupportFunctions, .user, .noData⟩)
  else
    ([()],
      match mapMessages (convertSystemMessages stopped) with
      | .error e => .error e
      | .ok msgs =>
        if msgs.length = 0 then
          .error ⟨.ChatCompletionMissingChildren, .user, .noData⟩
        else .ok msgs)

theorem mapMessages_ok {l msgs : List MsgTag} (h : mapMessages l = .ok msgs) :
    msgs = l := by
  induction l generalizing msgs with
  | nil =>
    simp only [mapMessages] at h
    cases h
    rfl
  | cons t ts ih =>
    simp only [mapMessages] at h
    cases hm : mapMessage t with
    | error e => rw [hm] at h; exact absurd h (by simp)
    | ok u =>
      rw [hm] at h
      cases hr : mapMessages ts with
      | error e => rw [hr] at h; exact absurd h (by simp)
      | ok rest =>
        rw [hr] at h
        cases h
        rw [ih hr]

theorem mapMessages_error_code {l : List MsgTag} {e : AIJSXError}
    (h : mapMessages l = .error e) :
    e.code = .AnthropicDoesNotSupportFunctions ∨ e.code = .ChatCompletionUnexpectedChild := by
  induction l with
  | nil => simp only [mapMessages] at h; exact absurd h (by simp)
  | cons t ts ih =>
    simp only [mapMessages] at h
    cases t <;> simp only [mapMessage] at h
    · cases h; right; rfl
    · cases hr : mapMessages ts with
      | error e2 => rw [hr] at h; cases h; exact ih hr
      | ok rest => rw [hr] at h; exact absurd h (by simp)
    · cases hr : mapMessages ts with
      | error e2 => rw [hr] at h; cases h; exact ih hr
      | ok rest => rw [hr] at h; exact absurd h (by simp)
    · cases h; left; rfl
    · cases h; left; rfl

/-- Counterexample to claim C8: children whose stopped rendering is a single
SystemMessage contain no UserMessage or AssistantMessage, yet
`AnthropicChatModel` does NOT fail with `ChatCompletionMissingChildren`: the
SystemMessage is converted into a UserMessage/AssistantMessage pair, so the
prompt is non-empty and the model call proceeds. -/
theorem anthropic_missing_children_cex :
    (anthropicChatModel false [.system]).2 = .ok [.userMsg, .assistant] ∧
      ∀ e : AIJSXError, (anthropicChatModel false [.system]).2 ≠ .error e := by
  refine ⟨rfl, ?_⟩
  intro e h
  rw [show (anthropicChatModel false [.system]).2 = .ok [.userMsg, .assistant] from rfl] at h
  exact Except.noConfusion h

/-- Claim C8 (amended): with a `functionDefinitions` prop,
`AnthropicChatModel` fails with `ChatModelDoesNotSupportFunctions` (kind
user) before yielding any frame.  It fails with
`ChatCompletionMissingChildren` (kind user) exactly when there is no
`functionDefinitions` prop and the stopped rendering of the children
contains no message element at all: a SystemMessage alone is converted into
a UserMessage/AssistantMessage pair and does not trigger the error, and
FunctionCall/FunctionResponse children fail earlier with
`AnthropicDoesNotSupportFunctions`. -/
theorem anthropic_user_errors_amended (d : Bool) (ms : List MsgTag) :
    (d = true → anthropicChatModel d ms =
        ([], .error ⟨.ChatModelDoesNotSupportFunctions, .user, .noData⟩)) ∧
      ((anthropicChatModel d ms).2 =
          .error ⟨.ChatCompletionMissingChildren, .user, .noData⟩ ↔
        d = false ∧ ms = []) := by
  constructor
  · intro hd
    simp [anthropicChatModel, hd]
  · cases d with
    | true =>
      constructor
      · intro h
        simp [anthropicChatModel] at h
      · rintro ⟨h, -⟩
        cases h
    | false =>
      constructor
      · intro h
        refine ⟨rfl, ?_⟩
        cases hm : mapMessages (convertSystemMessages ms) with
        | error e =>
          simp only [anthropicChatModel, Bool.false_eq_true, if_false, hm] at h
          cases h
          rcases mapMessages_error_code hm with hc | hc <;> cases hc
        | ok msgs =>
          simp only [anthropicChatModel, Bool.false_eq_true, if_false, hm] at h
          by_cases hz : msgs.length = 0
          · have hmsgs : msgs = [] := List.length_eq_zero.mp hz
            have hcv : convertSystemMessages ms = [] := by
              rw [← mapMessages_ok hm, hmsgs]
            cases ms with
            | nil => rfl
            | cons t ts =>
              exfalso
              cases t <;> simp [convertSystemMessages] at hcv
          · rw [if_neg hz] at h
            exact absurd h (by simp)
      · rintro ⟨-, hms⟩
        subst hms
        rfl

theorem anthropic_user_errors_amended_witness :
    (false = true → anthropicChatModel false [] =
        ([], .error ⟨.ChatModelDoesNotSupportFunctions, .user, .noData⟩)) ∧
      ((anthropicChatModel false []).2 =
          .error ⟨.ChatCompletionMissingChildren, .user, .noData⟩ ↔
        false = false ∧ ([] : List MsgTag) = []) :=
  anthropic_user_errors_amended false []

/-- Claim C2: for a memoized element and any sequence of render calls
starting from the empty cache, the inner render is invoked under context `c`
exactly once when `c` is ever rendered (and zero times otherwise) — in
particular at most once — the first call under `c` performing the inner
render; and every call under `c` returns the recursively memoized stored
value `memo (inner c)`. -/
theorem memo_element_single_eval (inner : Ctx → JNode) (cs : List Ctx) (c : Ctx) :
    countInner c (runRenders inner [] cs) = (if c ∈ cs then 1 else 0) ∧
      ∀ e ∈ runRenders inner [] cs, e.1 = c → e.2.1 = memoN (inner c) := by
  have h := runRenders_spec inner c cs [] (fun v hv => by cases hv)
  rcases h with ⟨hcount, hval⟩
  refine ⟨?_, hval⟩
  rw [hcount]
  simp [lookupCtx]

theorem memo_element_single_eval_witness :
    countInner 0 (runRenders (fun _ => .scalar (.num 7)) [] [0, 0, 1]) =
        (if 0 ∈ [0, 0, 1] then 1 else 0) ∧
      ∀ e ∈ runRenders (fun _ => .scalar (.num 7)) [] [0, 0, 1],
        e.1 = 0 → e.2.1 = memoN (.scalar (.num 7)) :=
  memo_element_single_eval (fun _ => .scalar (.num 7)) [0, 0, 1] 0

/-- `UseTools`: renders `<UseToolsFunctionCall/>` in a `try`; a caught error
whose `code` equals `ErrorCode.ChatModelDoesntSupportFunctions` makes it
return the prompt-engineered fallback `<UseToolsPromptEngineered/>`
(`Sum.inr ()` below); any other error is re-thrown. -/
def useToolsCatch (r : Except AIJSXError String) : Except AIJSXError (Sum String Unit) :=
  match r with
  | .ok v => .ok (.inl v)
  | .error e =>
    if e.code = ErrorCode.ChatModelDoesntSupportFunctions then .ok (.inr ())
    else .error e

/-- Claim C9: `UseTools` falls back to the prompt-engineered implementation
exactly when the caught error's code is
`ErrorCode.ChatModelDoesntSupportFunctions`, and re-throws every other
error — including one whose code is
`ErrorCode.ChatModelDoesNotSupportFunctions` (as thrown by
`AnthropicChatModel`), which is a distinct member of the modelled code
enumeration. -/
theorem useTools_fallback_iff (e : AIJSXError) :
    (useToolsCatch (.error e) = .ok (.inr ()) ↔
        e.code = .ChatModelDoesntSupportFunctions) ∧
      (e.code = .ChatModelDoesNotSupportFunctions → useToolsCatch (.error e) = .error e) ∧
      ErrorCode.ChatModelDoesNotSupportFunctions ≠
        ErrorCode.ChatModelDoesntSupportFunctions := by
  refine ⟨⟨?_, ?_⟩, ?_, by decide⟩
  · intro h
    by_cases hc : e.code = ErrorCode.ChatModelDoesntSupportFunctions
    · exact hc
    · simp [useToolsCatch, hc] at h
  · intro h
    simp [useToolsCatch, h]
  · intro h
    simp [useToolsCatch, h]

theorem useTools_fallback_iff_witness :
    (useToolsCatch (.error ⟨.ChatModelDoesNotSupportFunctions, .user, .noData⟩) =
          .ok (.inr ()) ↔
        (AIJSXError.mk .ChatModelDoesNotSupportFunctions .user .noData).code =
          .ChatModelDoesntSupportFunctions) ∧
      useToolsCatch (.error ⟨.ChatModelDoesNotSupportFunctions, .user, .noData⟩) =
        .error ⟨.ChatModelDoesNotSupportFunctions, .user, .noData⟩ ∧
      ErrorCode.ChatModelDoesNotSupportFunctions ≠
        ErrorCode.ChatModelDoesntSupportFunctions :=
  have h := useTools_fallback_iff ⟨.ChatModelDoesNotSupportFunctions, .user, .noData⟩
  ⟨h.1, h.2.1 rfl, h.2.2⟩

/-- Items in the `UseToolsFunctionCall` conversation: the FunctionCall
element produced by the model (with `props.name` and `props.args`), the
FunctionResponse element it is answered with, and plain text.  The stopped
render result of the completion is a list of such items. -/
inductive ChatItem where
  | functionCallElem (nm : String) (args : String)
  | functionResponseElem (nm : String) (content : String)
  | text (s : String)

/-- The error message built in the `catch` around the tool invocation:
`\`Function called failed with error: ${e.message}.\`` — note the trailing
period after the interpolated message. -/
def functionFailedMsg (m : String) : String :=
  "Function called failed with error: " ++ m ++ "."

/-- Joins a stopped render result into the final text (the non-element
branch returns `renderResult.join('')`). -/
def joinText (items : List ChatItem) : String :=
  items.foldl (fun acc it =>
    match it with
    | .text t => acc ++ t
    | _ => acc) ""

/-- One iteration of `UseToolsFunctionCall`'s completion loop: `messages` is
the accumulated message list, `renderResult` the render of the
`ChatCompletion` stopped at FunctionCall elements, and `toolRun` the outcome
of `props.tools[name].func(args)` (`.error m` models a throw whose message
is `m`).  The iteration yields the function call and its response (appending
both to the messages) and continues (`final = none`), or ends with the final
text, or fails on a malformed render result. -/
structure StepOut where
  yields : List ChatItem
  messages : List ChatItem
  final : Option String

def useToolsStep (messages : List ChatItem) (renderResult : List ChatItem)
    (toolRun : Except String String) : Except AIJSXError StepOut :=
  match renderResult with
  | .functionCallElem nm args :: rest =>
    if rest.length > 0 then
      .error ⟨.ModelOutputCouldNotBeParsedForTool, .runtime, .noData⟩
    else
      let response :=
        match toolRun with
        | .ok v => v
        | .error m => functionFailedMsg m
      .ok ⟨[.functionCallElem nm args, .functionResponseElem nm response],
           messages ++ [.functionCallElem nm args, .functionResponseElem nm response],
           none⟩
  | .functionResponseElem _ _ :: _ =>
    .error ⟨.ModelOutputCouldNotBeParsedForTool, .runtime, .noData⟩
  | items => .ok ⟨[], messages, some (joinText items)⟩

/-- Counterexample to claim C10's description of the response content: when
the tool throws with message `boom`, the FunctionResponse content is
`"Function called failed with error: boom."` — with a trailing period — not
the string `"Function called failed with error: "` followed by the
exception message alone. -/
theorem useTools_function_error_message_cex :
    useToolsStep [] [.functionCallElem "evaluate_expression" "x"] (.error "boom") =
      .ok ⟨[.functionCallElem "evaluate_expression" "x",
            .functionResponseElem "evaluate_expression"
              "Function called failed with error: boom."],
           [.functionCallElem "evaluate_expression" "x",
            .functionResponseElem "evaluate_expression"
              "Function called failed with error: boom."], none⟩ ∧
      "Function called failed with error: boom." ≠
        "Function called failed with error: " ++ "boom" := by
  refine ⟨rfl, by decide⟩

/-- Claim C10 (amended): when the model produces a FunctionCall element and
the invoked tool function throws with message `m`, the exception does not
propagate: the iteration succeeds, yielding the function call and a
FunctionResponse whose content is `"Function called failed with error: "`
followed by the exception message and a terminating period; both are
appended to the message list, and `final = none` — the loop continues with
another ChatCompletion round. -/
theorem useTools_function_error_amended (messages : List ChatItem) (nm args m : String) :
    useToolsStep messages [.functionCallElem nm args] (.error m) =
        .ok ⟨[.functionCallElem nm args,
              .functionResponseElem nm (functionFailedMsg m)],
             messages ++ [.functionCallElem nm args,
              .functionResponseElem nm (functionFailedMsg m)],
             none⟩ ∧
      functionFailedMsg m = "Function called failed with error: " ++ m ++ "." :=
  ⟨rfl, rfl⟩

end AIJSXProof
